import Mathlib

/-!
Shallow embedding of the Doris `MemTrackerLimiter` hierarchy
(`be/src/runtime/memory/mem_tracker_limiter.h`).

Tracker nodes are identified by natural-number indices.  The static shape of
the tree (limits, labels, the cached `_all_ancestors` / `_limited_ancestors`
lists) is a `TrackerTree`; the mutable part (the `_consumption` counters, the
`_untracked_mem` accumulators and the registered GC callbacks) is a
`MemState`.  Machine `int64_t` values are modelled as unbounded `Int`
(consumption values in the tracker stay far from the 2^63 boundary; no
wrap-around behaviour is relied upon by the source).
-/

/-- Static data of one tracker node: `_limit`, `_label`, `_all_ancestors`
(this node first, root last) and `_limited_ancestors` (the ancestors with
`limit >= 0`, excluding the process tracker), as cached at construction. -/
structure Tracker where
  limit : Int
  label : String
  allAncestors : List Nat
  limitedAncestors : List Nat

/-- The static tracker tree: node index to node data. -/
abbrev TrackerTree := Nat → Tracker

/-- Mutable state of the whole tree: per-node consumption counter
(`_consumption`), per-node untracked-memory accumulator (`_untracked_mem`),
and per-node remaining GC reclaim amounts (what the registered GC callbacks
would free when invoked, in registration order). -/
structure MemState where
  consumption : Nat → Int
  untrackedMem : Nat → Int
  gcPending : Nat → List Int

/-- Result of a fallible tracker operation (`doris::Status`): OK, the
process-memory (sys-mem-info) error, or a memory-limit-exceeded error naming
the tracker whose ceiling failed. -/
inductive Status where
  | ok
  | sysMemExceeded
  | memLimitExceeded (tracker : Nat)
deriving DecidableEq

/-- External `SysMemGuard` data: `PerfCounters::get_vm_rss()` and
`MemInfo::mem_limit()`. -/
structure SysInfo where
  vmRss : Int
  memLimit : Int

/-- `MemTrackerLimiter::check_sys_mem_info`: fails iff
`get_vm_rss() + bytes >= mem_limit()`. -/
def checkSysMemInfo (sys : SysInfo) (bytes : Int) : Status :=
  if sys.vmRss + bytes ≥ sys.memLimit then .sysMemExceeded else .ok

/-- Pointwise update of a `Nat`-indexed function (used for counter writes). -/
def setAt {α : Type} (f : Nat → α) (n : Nat) (v : α) : Nat → α :=
  fun m => if m = n then v else f m

/-- `tracker->_consumption->add(b)` for the node `n`. -/
def addCons (n : Nat) (b : Int) (s : MemState) : MemState :=
  { s with consumption := setAt s.consumption n (s.consumption n + b) }

/-- Add `b` to the consumption counter of every node in `l`, in order. -/
def addAll (b : Int) (l : List Nat) (s : MemState) : MemState :=
  l.foldl (fun st n => addCons n b st) s

/-- `MemTrackerLimiter::consume`: no-op on `bytes == 0`, otherwise an
unconditional `add(bytes)` on every node of `_all_ancestors`. -/
def consume (tree : TrackerTree) (self : Nat) (bytes : Int) (s : MemState) : MemState :=
  if bytes = 0 then s else addAll bytes (tree self).allAncestors s

/-- `MemTrackerLimiter::release(bytes) { consume(-bytes); }`. -/
def release (tree : TrackerTree) (self : Nat) (bytes : Int) (s : MemState) : MemState :=
  consume tree self (-bytes) s

/-- `MemTrackerLimiter::add_untracked_mem`: add `bytes` to `_untracked_mem`;
if the absolute value now reaches `config::mem_tracker_consume_min_size_bytes`
(`minSize`), exchange the accumulator with 0 and return the drained value,
otherwise return 0. -/
def addUntrackedMem (minSize : Int) (self : Nat) (bytes : Int) (s : MemState) :
    Int × MemState :=
  let u := s.untrackedMem self + bytes
  if |u| ≥ minSize then
    (u, { s with untrackedMem := setAt s.untrackedMem self 0 })
  else
    (0, { s with untrackedMem := setAt s.untrackedMem self u })

/-- The flush loop of `cache_consume_local`: walk `_all_ancestors` in list
order (this node first), returning as soon as a tracker labelled
`"Process"` is met, otherwise `add(b)` on the node.  Note the source adds
the `bytes` argument of the call here, not the value drained from the
accumulator. -/
def addUntilProcess (tree : TrackerTree) (b : Int) : List Nat → MemState → MemState
  | [], s => s
  | n :: rest, s =>
    if (tree n).label = "Process" then s
    else addUntilProcess tree b rest (addCons n b s)

/-- `MemTrackerLimiter::cache_consume_local`: no-op on `bytes == 0`;
otherwise feed `bytes` to the accumulator and, if a non-zero value was
drained, run the flush loop — which (as in the source) adds `bytes`, not the
drained value, to each ancestor below the `"Process"` tracker. -/
def cacheConsumeLocal (tree : TrackerTree) (minSize : Int) (self : Nat) (bytes : Int)
    (s : MemState) : MemState :=
  if bytes = 0 then s
  else
    let r := addUntrackedMem minSize self bytes s
    if r.1 ≠ 0 then addUntilProcess tree bytes (tree self).allAncestors r.2
    else r.2

/-- One GC pass over the remaining reclaim amounts of node `self`: invoke
callbacks in registration order, each invocation releasing its amount
through `self`'s ancestor chain, stopping once `bytes` more would fit below
the limit.  Returns the state and the unconsumed callback amounts. -/
def gcPass (tree : TrackerTree) (self : Nat) (bytes : Int) :
    List Int → MemState → MemState × List Int
  | [], s => (s, [])
  | f :: rest, s =>
    if s.consumption self + bytes < (tree self).limit then (s, f :: rest)
    else gcPass tree self bytes rest (release tree self f s)

/-- Modelled from the spec: the bodies of `try_gc_memory` / `gc_memory` are
declared in the header but are not among the given sources.  Following
§4.5 of the specification, the registered callbacks are invoked in order
(each releasing the memory it frees through the node's own chain) until the
freed total is deemed sufficient or all callbacks have been tried;
consumption is then re-checked against the limit and success is returned
iff the pending request can proceed, i.e. `consumption + bytes < limit` —
the same strict check used by `try_add` and by `check_limit`.  Callbacks
are one-shot pools of reclaimable bytes: once invoked, a later pass frees
nothing more from them. -/
def tryGcMemory (tree : TrackerTree) (self : Nat) (bytes : Int) (s : MemState) :
    Status × MemState :=
  let p := gcPass tree self bytes (s.gcPending self) s
  let s2 : MemState := { p.1 with gcPending := setAt p.1.gcPending self p.2 }
  if s2.consumption self + bytes < (tree self).limit then (.ok, s2)
  else (.memLimitExceeded self, s2)

/-- The exemption test of `try_consume`:
`tracker->limit() < 0 || tracker->label() == "Process"`. -/
def exemptB (t : Tracker) : Bool :=
  t.limit < 0 || t.label = "Process"

/-- The top-down walk of `try_consume` (loop `for i = size-1 downto 0`): `l`
is the unprocessed part of the reversed `_all_ancestors` list (root first),
`done` the already-incremented nodes (for rollback).  An exempt tracker
gets an unconditional add; otherwise `try_add(bytes, limit)` is attempted,
with the GC-then-retry loop on failure.  In this sequential model a
successful GC pass establishes `consumption + bytes < limit`, so the
retried `try_add` succeeds and the source's `while (true)` loop runs at
most twice; a failed GC pass rolls back every node in `done` and returns
the GC error. -/
def tcWalk (tree : TrackerTree) (bytes : Int) : List Nat → List Nat → MemState → Status × MemState
  | [], _, s => (.ok, s)
  | n :: rest, done, s =>
    if exemptB (tree n) then tcWalk tree bytes rest (n :: done) (addCons n bytes s)
    else if s.consumption n + bytes < (tree n).limit then
      tcWalk tree bytes rest (n :: done) (addCons n bytes s)
    else
      match tryGcMemory tree n bytes s with
      | (.ok, s1) => tcWalk tree bytes rest (n :: done) (addCons n bytes s1)
      | (st, s1) => (st, addAll (-bytes) done s1)

/-- `MemTrackerLimiter::try_consume`: non-positive `bytes` is redirected to
`release(-bytes)` and always succeeds; otherwise `check_sys_mem_info` is
consulted first, then the tracker walk runs over `_all_ancestors` from the
root end. -/
def tryConsume (sys : SysInfo) (tree : TrackerTree) (self : Nat) (bytes : Int)
    (s : MemState) : Status × MemState :=
  if bytes ≤ 0 then (.ok, release tree self (-bytes) s)
  else
    match checkSysMemInfo sys bytes with
    | .ok => tcWalk tree bytes (tree self).allAncestors.reverse [] s
    | st => (st, s)

/-- The top-down walk of `check_limit` over `_limited_ancestors`: while
`current_value() + bytes < limit` fails to hold, invoke `try_gc_memory`,
propagating its error immediately.  A successful GC pass establishes the
condition, so the source's `while (true)` loop exits on its re-check. -/
def clWalk (tree : TrackerTree) (bytes : Int) : List Nat → MemState → Status × MemState
  | [], s => (.ok, s)
  | n :: rest, s =>
    if s.consumption n + bytes < (tree n).limit then clWalk tree bytes rest s
    else
      match tryGcMemory tree n bytes s with
      | (.ok, s1) => clWalk tree bytes rest s1
      | (st, s1) => (st, s1)

/-- `MemTrackerLimiter::check_limit`: OK on non-positive `bytes`, otherwise
`check_sys_mem_info` followed by the walk over `_limited_ancestors` from the
root end. -/
def checkLimit (sys : SysInfo) (tree : TrackerTree) (self : Nat) (bytes : Int)
    (s : MemState) : Status × MemState :=
  if bytes ≤ 0 then (.ok, s)
  else
    match checkSysMemInfo sys bytes with
    | .ok => clWalk tree bytes (tree self).limitedAncestors.reverse s
    | st => (st, s)

/-- An operation of a tracker workload history: a direct `consume` or a
`cache_consume_local`. -/
inductive MemOp where
  | consumeOp (self : Nat) (bytes : Int)
  | cacheLocalOp (self : Nat) (bytes : Int)

/-- Run a sequence of operations left to right. -/
def runOps (tree : TrackerTree) (minSize : Int) : List MemOp → MemState → MemState
  | [], s => s
  | .consumeOp n b :: rest, s => runOps tree minSize rest (consume tree n b s)
  | .cacheLocalOp n b :: rest, s =>
      runOps tree minSize rest (cacheConsumeLocal tree minSize n b s)

/-- Number of occurrences of `m` in a list of node indices. -/
def natCount (m : Nat) : List Nat → Nat
  | [] => 0
  | n :: l => (if n = m then 1 else 0) + natCount m l

/-- Contribution of one operation to the counter of node `r`: a direct
`consume` adds `bytes` once per occurrence of `r` in the caller's ancestor
chain; a `cache_consume_local` contributes nothing to a `"Process"` node. -/
def consumeDelta (tree : TrackerTree) (r : Nat) : MemOp → Int
  | .consumeOp n b => (natCount r (tree n).allAncestors : Int) * b
  | .cacheLocalOp _ _ => 0

/-- Total direct-consume contribution of an operation sequence to node `r`. -/
def sumConsumeDelta (tree : TrackerTree) (r : Nat) : List MemOp → Int
  | [] => 0
  | op :: rest => consumeDelta tree r op + sumConsumeDelta tree r rest

/-- Run a sequence of `add_untracked_mem` calls on one node, collecting the
returned (drained) values. -/
def untrackedRun (minSize : Int) (self : Nat) : List Int → MemState → List Int × MemState
  | [], s => ([], s)
  | b :: rest, s =>
    let r := addUntrackedMem minSize self b s
    let q := untrackedRun minSize self rest r.2
    (r.1 :: q.1, q.2)

/-- No registered GC callback frees any memory. -/
def GcZero (s : MemState) : Prop :=
  ∀ n, ∀ a ∈ s.gcPending n, a = 0

/-! Basic lemmas about counter updates. -/

theorem addCons_consumption (n : Nat) (b : Int) (s : MemState) (m : Nat) :
    (addCons n b s).consumption m
      = if m = n then s.consumption m + b else s.consumption m := by
  by_cases h : m = n
  · subst h; simp [addCons, setAt]
  · simp [addCons, setAt, h]

theorem addAll_consumption (b : Int) :
    ∀ (l : List Nat) (s : MemState) (m : Nat),
      (addAll b l s).consumption m = s.consumption m + (natCount m l : Int) * b
  | [], s, m => by simp [addAll, natCount]
  | n :: l, s, m => by
    have ih := addAll_consumption b l (addCons n b s) m
    have h1 : addAll b (n :: l) s = addAll b l (addCons n b s) := rfl
    rw [h1, ih, addCons_consumption]
    by_cases h : n = m
    · rw [if_pos h.symm]
      simp only [natCount, if_pos h]
      push_cast
      ring
    · rw [if_neg (fun hh => h hh.symm)]
      simp only [natCount, if_neg h]
      push_cast
      ring

theorem addAll_untrackedMem (b : Int) :
    ∀ (l : List Nat) (s : MemState), (addAll b l s).untrackedMem = s.untrackedMem
  | [], _ => rfl
  | n :: l, s => addAll_untrackedMem b l (addCons n b s)

theorem addAll_gcPending (b : Int) :
    ∀ (l : List Nat) (s : MemState), (addAll b l s).gcPending = s.gcPending
  | [], _ => rfl
  | n :: l, s => addAll_gcPending b l (addCons n b s)

theorem natCount_eq_zero {m : Nat} : ∀ {l : List Nat}, m ∉ l → natCount m l = 0 := by
  intro l
  induction l with
  | nil => intro _; rfl
  | cons n l ih =>
    intro h
    rw [List.mem_cons, not_or] at h
    simp only [natCount]
    rw [if_neg (fun e => h.1 e.symm), ih h.2]

theorem natCount_eq_one {m : Nat} :
    ∀ {l : List Nat}, l.Nodup → m ∈ l → natCount m l = 1 := by
  intro l
  induction l with
  | nil => intro _ h; exact absurd h (List.not_mem_nil m)
  | cons n l ih =>
    intro hd hm
    rw [List.nodup_cons] at hd
    rw [List.mem_cons] at hm
    simp only [natCount]
    rcases hm with he | hm
    · subst he
      rw [if_pos rfl, natCount_eq_zero hd.1]
    · have hne : n ≠ m := fun e => hd.1 (e ▸ hm)
      rw [if_neg hne, ih hd.2 hm]

theorem gcZero_addCons {s : MemState} (h : GcZero s) (n : Nat) (b : Int) :
    GcZero (addCons n b s) := h

/-! Lemmas about the GC protocol when no callback frees memory. -/

theorem gcPass_zero (tree : TrackerTree) (self : Nat) (bytes : Int) :
    ∀ (l : List Int) (s : MemState), (∀ a ∈ l, a = 0) →
      ∃ l', gcPass tree self bytes l s = (s, l') ∧ ∀ a ∈ l', a = 0 := by
  intro l
  induction l with
  | nil => intro s _; exact ⟨[], rfl, by simp⟩
  | cons f rest ih =>
    intro s h
    by_cases hc : s.consumption self + bytes < (tree self).limit
    · exact ⟨f :: rest, by simp [gcPass, hc], h⟩
    · have hf : f = 0 := h f (List.mem_cons_self f rest)
      have hrel : release tree self f s = s := by
        subst hf
        simp [release, consume]
      obtain ⟨l', hl', hz⟩ := ih s (fun a ha => h a (List.mem_cons_of_mem f ha))
      refine ⟨l', ?_, hz⟩
      simp only [gcPass, if_neg hc, hrel]
      exact hl'

theorem tryGcMemory_zero {s : MemState} (tree : TrackerTree) (n : Nat) (bytes : Int)
    (hgc : GcZero s) :
    ∃ s', tryGcMemory tree n bytes s =
        ((if s.consumption n + bytes < (tree n).limit then Status.ok
          else Status.memLimitExceeded n), s')
      ∧ s'.consumption = s.consumption ∧ s'.untrackedMem = s.untrackedMem
      ∧ GcZero s' := by
  obtain ⟨l', hp, hz⟩ := gcPass_zero tree n bytes (s.gcPending n) s (hgc n)
  refine ⟨{ s with gcPending := setAt s.gcPending n l' }, ?_, rfl, rfl, ?_⟩
  · simp only [tryGcMemory, hp]
    split <;> rfl
  · intro m a ha
    by_cases hm : m = n
    · subst hm
      simp only [setAt, if_pos rfl] at ha
      exact hz a ha
    · simp only [setAt, if_neg hm] at ha
      exact hgc m a ha

theorem tryGcMemory_fst (tree : TrackerTree) (n : Nat) (bytes : Int) (s : MemState) :
    (tryGcMemory tree n bytes s).1 = Status.ok
    ∨ (tryGcMemory tree n bytes s).1 = Status.memLimitExceeded n := by
  simp only [tryGcMemory]
  split
  · left; rfl
  · right; rfl

/-! Bookkeeping helpers for the `try_consume` walk. -/

theorem addCons_consumption_ne {s : MemState} {n x : Nat} (b : Int) (h : x ≠ n) :
    (addCons n b s).consumption x = s.consumption x := by
  rw [addCons_consumption, if_neg h]

theorem count_step_add {s : MemState} (n m : Nat) (b : Int) (rest : List Nat) :
    (addCons n b s).consumption m + (natCount m rest : Int) * b
      = s.consumption m + (natCount m (n :: rest) : Int) * b := by
  rw [addCons_consumption]
  by_cases h : m = n
  · rw [if_pos h]
    simp only [natCount, if_pos h.symm]
    push_cast
    ring
  · rw [if_neg h]
    simp only [natCount, if_neg (Ne.symm h)]
    push_cast
    ring

theorem count_step_sub {s : MemState} (n m : Nat) (b : Int) (done : List Nat) :
    (addCons n b s).consumption m - (natCount m (n :: done) : Int) * b
      = s.consumption m - (natCount m done : Int) * b := by
  rw [addCons_consumption]
  by_cases h : m = n
  · rw [if_pos h]
    simp only [natCount, if_pos h.symm]
    push_cast
    ring
  · rw [if_neg h]
    simp only [natCount, if_neg (Ne.symm h)]
    push_cast
    ring

/-! The central analysis of the `try_consume` walk when no GC callback frees
memory: either every node of the remaining list is incremented by `bytes`
and the walk succeeds, or the walk fails at a non-exempt node, names it in
the error, and rolls back exactly the nodes in `done`. -/

theorem tcWalk_zero (tree : TrackerTree) (bytes : Int) :
    ∀ (l done : List Nat) (s : MemState), GcZero s →
      ((tcWalk tree bytes l done s).1 = Status.ok
        ∧ (∀ m, (tcWalk tree bytes l done s).2.consumption m
              = s.consumption m + (natCount m l : Int) * bytes)
        ∧ (l.Nodup → ∀ n ∈ l, exemptB (tree n) = false →
              s.consumption n + bytes < (tree n).limit))
      ∨ (∃ f, (tcWalk tree bytes l done s).1 = Status.memLimitExceeded f
        ∧ f ∈ l ∧ exemptB (tree f) = false
        ∧ (∀ m, (tcWalk tree bytes l done s).2.consumption m
              = s.consumption m - (natCount m done : Int) * bytes)
        ∧ (l.Nodup → (tree f).limit ≤ s.consumption f + bytes)) := by
  intro l
  induction l with
  | nil =>
    intro done s hgc
    left
    refine ⟨rfl, fun m => ?_, fun _ n hn => absurd hn (List.not_mem_nil n)⟩
    simp [tcWalk, natCount]
  | cons n rest ih =>
    intro done s hgc
    have hstep : ∀ (hw : tcWalk tree bytes (n :: rest) done s
          = tcWalk tree bytes rest (n :: done) (addCons n bytes s)),
        (exemptB (tree n) = false → s.consumption n + bytes < (tree n).limit) →
        ((tcWalk tree bytes (n :: rest) done s).1 = Status.ok
          ∧ (∀ m, (tcWalk tree bytes (n :: rest) done s).2.consumption m
                = s.consumption m + (natCount m (n :: rest) : Int) * bytes)
          ∧ ((n :: rest).Nodup → ∀ x ∈ n :: rest, exemptB (tree x) = false →
                s.consumption x + bytes < (tree x).limit))
        ∨ (∃ f, (tcWalk tree bytes (n :: rest) done s).1 = Status.memLimitExceeded f
          ∧ f ∈ n :: rest ∧ exemptB (tree f) = false
          ∧ (∀ m, (tcWalk tree bytes (n :: rest) done s).2.consumption m
                = s.consumption m - (natCount m done : Int) * bytes)
          ∧ ((n :: rest).Nodup → (tree f).limit ≤ s.consumption f + bytes)) := by
      intro hw hn
      rcases ih (n :: done) (addCons n bytes s) (gcZero_addCons hgc n bytes) with
        ⟨h1, h2, h3⟩ | ⟨f, h1, h2, h3, h4, h5⟩
      · left
        refine ⟨by rw [hw]; exact h1, fun m => ?_, ?_⟩
        · rw [hw, h2 m, count_step_add]
        · intro hnd x hx hxe
          rw [List.nodup_cons] at hnd
          rcases List.mem_cons.mp hx with he | hx'
          · rw [he]
            exact hn (he ▸ hxe)
          · have hx3 := h3 hnd.2 x hx' hxe
            have hxn : x ≠ n := fun e => hnd.1 (e ▸ hx')
            rwa [addCons_consumption_ne bytes hxn] at hx3
      · right
        refine ⟨f, by rw [hw]; exact h1, List.mem_cons_of_mem n h2, h3,
          fun m => ?_, ?_⟩
        · rw [hw, h4 m, count_step_sub]
        · intro hnd
          rw [List.nodup_cons] at hnd
          have h5' := h5 hnd.2
          have hfn : f ≠ n := fun e => hnd.1 (e ▸ h2)
          rwa [addCons_consumption_ne bytes hfn] at h5'
    by_cases hex : exemptB (tree n) = true
    · exact hstep (by simp [tcWalk, hex]) (fun hf => absurd hex (by rw [hf]; simp))
    · have hexf : exemptB (tree n) = false := by
        cases hb : exemptB (tree n)
        · rfl
        · exact absurd hb hex
      by_cases hc : s.consumption n + bytes < (tree n).limit
      · exact hstep (by simp [tcWalk, hex, hc]) (fun _ => hc)
      · obtain ⟨s', hq, hcons, hunt, hgc'⟩ := tryGcMemory_zero tree n bytes hgc
        rw [if_neg hc] at hq
        have hw : tcWalk tree bytes (n :: rest) done s
            = (Status.memLimitExceeded n, addAll (-bytes) done s') := by
          simp [tcWalk, hex, hc, hq]
        right
        refine ⟨n, by rw [hw], List.mem_cons_self n rest, hexf, fun m => ?_,
          fun _ => le_of_not_lt hc⟩
        rw [hw]
        show (addAll (-bytes) done s').consumption m = _
        rw [addAll_consumption, congrFun hcons m]
        ring

/-! Further walk lemmas (independent of GC behaviour). -/

theorem tcWalk_allExempt (tree : TrackerTree) (bytes : Int) :
    ∀ (l done : List Nat) (s : MemState), (∀ n ∈ l, exemptB (tree n) = true) →
      tcWalk tree bytes l done s = (Status.ok, addAll bytes l s) := by
  intro l
  induction l with
  | nil => intro done s _; rfl
  | cons n rest ih =>
    intro done s h
    have hex := h n (List.mem_cons_self n rest)
    have hw : tcWalk tree bytes (n :: rest) done s
        = tcWalk tree bytes rest (n :: done) (addCons n bytes s) := by
      simp [tcWalk, hex]
    rw [hw, ih _ _ (fun x hx => h x (List.mem_cons_of_mem n hx))]
    rfl

theorem tcWalk_err (tree : TrackerTree) (bytes : Int) :
    ∀ (l done : List Nat) (s : MemState) (f : Nat),
      (tcWalk tree bytes l done s).1 = Status.memLimitExceeded f →
      f ∈ l ∧ exemptB (tree f) = false := by
  intro l
  induction l with
  | nil =>
    intro done s f h
    exact absurd h (by simp [tcWalk])
  | cons n rest ih =>
    intro done s f h
    by_cases hex : exemptB (tree n) = true
    · rw [show tcWalk tree bytes (n :: rest) done s
          = tcWalk tree bytes rest (n :: done) (addCons n bytes s) from
          by simp [tcWalk, hex]] at h
      obtain ⟨hf, hfe⟩ := ih _ _ f h
      exact ⟨List.mem_cons_of_mem n hf, hfe⟩
    · have hexf : exemptB (tree n) = false := by
        cases hb : exemptB (tree n)
        · rfl
        · exact absurd hb hex
      by_cases hc : s.consumption n + bytes < (tree n).limit
      · rw [show tcWalk tree bytes (n :: rest) done s
            = tcWalk tree bytes rest (n :: done) (addCons n bytes s) from
            by simp [tcWalk, hex, hc]] at h
        obtain ⟨hf, hfe⟩ := ih _ _ f h
        exact ⟨List.mem_cons_of_mem n hf, hfe⟩
      · rcases hq : tryGcMemory tree n bytes s with ⟨st, s1⟩
        rcases tryGcMemory_fst tree n bytes s with hok | herr
        · rw [hq] at hok
          simp only at hok
          subst hok
          rw [show tcWalk tree bytes (n :: rest) done s
              = tcWalk tree bytes rest (n :: done) (addCons n bytes s1) from
              by simp [tcWalk, hex, hc, hq]] at h
          obtain ⟨hf, hfe⟩ := ih _ _ f h
          exact ⟨List.mem_cons_of_mem n hf, hfe⟩
        · rw [hq] at herr
          simp only at herr
          subst herr
          rw [show tcWalk tree bytes (n :: rest) done s
              = (Status.memLimitExceeded n, addAll (-bytes) done s1) from
              by simp [tcWalk, hex, hc, hq]] at h
          simp only at h
          rcases h with h
          have hfn : f = n := by
            cases h
            rfl
          subst hfn
          exact ⟨List.mem_cons_self f rest, hexf⟩

theorem clWalk_zero (tree : TrackerTree) (bytes : Int) :
    ∀ (l : List Nat) (s : MemState), GcZero s →
      (clWalk tree bytes l s = (Status.ok, s))
      ∨ (∃ f s', f ∈ l ∧ (tree f).limit ≤ s.consumption f + bytes
          ∧ clWalk tree bytes l s = (Status.memLimitExceeded f, s')
          ∧ s'.consumption = s.consumption) := by
  intro l
  induction l with
  | nil => intro s _; left; rfl
  | cons n rest ih =>
    intro s hgc
    by_cases hc : s.consumption n + bytes < (tree n).limit
    · have hw : clWalk tree bytes (n :: rest) s = clWalk tree bytes rest s := by
        simp [clWalk, hc]
      rcases ih s hgc with h | ⟨f, s', hf, hle, hcl, hcons⟩
      · left
        rw [hw, h]
      · right
        exact ⟨f, s', List.mem_cons_of_mem n hf, hle, by rw [hw, hcl], hcons⟩
    · obtain ⟨s', hq, hcons, _, _⟩ := tryGcMemory_zero tree n bytes hgc
      rw [if_neg hc] at hq
      right
      refine ⟨n, s', List.mem_cons_self n rest, le_of_not_lt hc, ?_, hcons⟩
      simp [clWalk, hc, hq]

/-! Lemmas about `consume` and the batched path. -/

theorem consume_consumption (tree : TrackerTree) (self : Nat) (b : Int)
    (s : MemState) (m : Nat) :
    (consume tree self b s).consumption m
      = s.consumption m + (natCount m (tree self).allAncestors : Int) * b := by
  by_cases hb : b = 0
  · subst hb
    simp [consume]
  · rw [consume, if_neg hb, addAll_consumption]

theorem addUntilProcess_process (tree : TrackerTree) (b : Int) :
    ∀ (l : List Nat) (s : MemState) (m : Nat), (tree m).label = "Process" →
      (addUntilProcess tree b l s).consumption m = s.consumption m := by
  intro l
  induction l with
  | nil => intro s m _; rfl
  | cons n rest ih =>
    intro s m hm
    by_cases hn : (tree n).label = "Process"
    · simp [addUntilProcess, hn]
    · have hw : addUntilProcess tree b (n :: rest) s
          = addUntilProcess tree b rest (addCons n b s) := by
        simp [addUntilProcess, hn]
      have hnm : m ≠ n := fun e => hn (e ▸ hm)
      rw [hw, ih _ m hm, addCons_consumption_ne b hnm]

theorem addUntrackedMem_consumption (minSize : Int) (self : Nat) (bytes : Int)
    (s : MemState) :
    (addUntrackedMem minSize self bytes s).2.consumption = s.consumption := by
  rw [addUntrackedMem]
  split <;> rfl

theorem cacheConsumeLocal_process (tree : TrackerTree) (minSize : Int) (self : Nat)
    (bytes : Int) (s : MemState) (m : Nat) (hm : (tree m).label = "Process") :
    (cacheConsumeLocal tree minSize self bytes s).consumption m = s.consumption m := by
  rw [cacheConsumeLocal]
  by_cases hb : bytes = 0
  · rw [if_pos hb]
  · rw [if_neg hb]
    by_cases hr : (addUntrackedMem minSize self bytes s).1 ≠ 0
    · rw [if_pos hr, addUntilProcess_process tree bytes _ _ m hm,
        congrFun (addUntrackedMem_consumption minSize self bytes s) m]
    · rw [if_neg hr]
      exact congrFun (addUntrackedMem_consumption minSize self bytes s) m

theorem runOps_process (tree : TrackerTree) (minSize : Int) (r : Nat)
    (hr : (tree r).label = "Process") :
    ∀ (ops : List MemOp) (s : MemState),
      (runOps tree minSize ops s).consumption r
        = s.consumption r + sumConsumeDelta tree r ops := by
  intro ops
  induction ops with
  | nil =>
    intro s
    simp [runOps, sumConsumeDelta]
  | cons op rest ih =>
    intro s
    cases op with
    | consumeOp n b =>
      rw [show runOps tree minSize (MemOp.consumeOp n b :: rest) s
          = runOps tree minSize rest (consume tree n b s) from rfl,
        ih, consume_consumption]
      simp only [sumConsumeDelta, consumeDelta]
      ring
    | cacheLocalOp n b =>
      rw [show runOps tree minSize (MemOp.cacheLocalOp n b :: rest) s
          = runOps tree minSize rest (cacheConsumeLocal tree minSize n b s) from rfl,
        ih, cacheConsumeLocal_process tree minSize n b s r hr]
      simp only [sumConsumeDelta, consumeDelta]
      ring

/-! Lemmas about the untracked-memory accumulator. -/

theorem addUntrackedMem_conserve (minSize : Int) (self : Nat) (bytes : Int)
    (s : MemState) :
    (addUntrackedMem minSize self bytes s).2.untrackedMem self
        + (addUntrackedMem minSize self bytes s).1
      = s.untrackedMem self + bytes := by
  rw [addUntrackedMem]
  by_cases h : |s.untrackedMem self + bytes| ≥ minSize
  · rw [if_pos h]
    simp [setAt]
  · rw [if_neg h]
    simp [setAt]

theorem untrackedRun_conserve (minSize : Int) (self : Nat) :
    ∀ (bs : List Int) (s : MemState),
      (untrackedRun minSize self bs s).2.untrackedMem self
          + ((untrackedRun minSize self bs s).1).sum
        = s.untrackedMem self + bs.sum := by
  intro bs
  induction bs with
  | nil =>
    intro s
    simp [untrackedRun]
  | cons b rest ih =>
    intro s
    simp only [untrackedRun, List.sum_cons]
    have hs := addUntrackedMem_conserve minSize self b s
    have hr := ih (addUntrackedMem minSize self b s).2
    linarith

/-! Helpers for instantiations. -/

theorem gcZero_of_nil {s : MemState} (h : ∀ n, s.gcPending n = []) : GcZero s := by
  intro n a ha
  rw [h n] at ha
  exact absurd ha (List.not_mem_nil a)

theorem exemptB_eq_false {t : Tracker} (h : exemptB t = false) :
    0 ≤ t.limit ∧ t.label ≠ "Process" := by
  simp only [exemptB, Bool.or_eq_false_iff, decide_eq_false_iff_not] at h
  exact ⟨not_lt.mp h.1, h.2⟩

/-! Concrete instances: the example tree of spec §8.6. -/

/-- The example tree: node 0 is the unlimited process root, node 1 a query
tracker with limit 1000, node 2 an unlimited instance tracker under it. -/
def exTree : TrackerTree := fun n =>
  if n = 0 then ⟨-1, "Process", [0], []⟩
  else if n = 1 then ⟨1000, "Query", [1, 0], [1]⟩
  else ⟨-1, "Instance", [2, 1, 0], [1]⟩

/-- Ample physical headroom: the `SysMemGuard` check always passes here. -/
def exSys : SysInfo := ⟨0, 1000000⟩

/-- All counters and accumulators zero, no GC callbacks registered. -/
def zeroState : MemState := ⟨fun _ => 0, fun _ => 0, fun _ => []⟩

/-- State after `try_consume(600)` on the instance tracker: 600 attributed
to each of the three trackers, no GC callbacks registered. -/
def exS600 : MemState :=
  ⟨fun n => if n ≤ 2 then 600 else 0, fun _ => 0, fun _ => []⟩

/-- As `exS600`, with a GC callback registered on the query tracker that
frees 450 bytes when invoked. -/
def exS600gc : MemState :=
  ⟨fun n => if n ≤ 2 then 600 else 0, fun _ => 0,
    fun n => if n = 1 then [450] else []⟩

/-- A tree with a non-root tracker labelled `"Process"` carrying the
non-negative limit 0 (node 1), under the root (node 0), above a leaf
(node 2). -/
def exTreeP : TrackerTree := fun n =>
  if n = 0 then ⟨-1, "Process", [0], []⟩
  else if n = 1 then ⟨0, "Process", [1, 0], []⟩
  else ⟨-1, "Leaf", [2, 1, 0], []⟩

/-! Claim theorems. -/

/-- Claim C1: for every tracker node and every `bytes > 0`, if
`try_consume(bytes)` returns an error (with the `SysMemGuard` check passing
and no registered GC callback freeing memory), then every tracker counter
has the same net value as before the call — the rollback subtracts `bytes`
from exactly the ancestors incremented during the walk, so no partial
attribution is observable — and the error is a memory-limit-exceeded error
naming an ancestor in the chain with a real ceiling (non-negative limit,
not the `"Process"` tracker). -/
theorem tryConsume_failure_exact_rollback (sys : SysInfo) (tree : TrackerTree)
    (self : Nat) (bytes : Int) (s : MemState) (hb : 0 < bytes)
    (hsys : sys.vmRss + bytes < sys.memLimit) (hgc : GcZero s)
    (herr : (tryConsume sys tree self bytes s).1 ≠ Status.ok) :
    (∀ m, (tryConsume sys tree self bytes s).2.consumption m = s.consumption m)
    ∧ ∃ f, (tryConsume sys tree self bytes s).1 = Status.memLimitExceeded f
        ∧ f ∈ (tree self).allAncestors ∧ 0 ≤ (tree f).limit
        ∧ (tree f).label ≠ "Process" := by
  have hbn : ¬ bytes ≤ 0 := not_le.mpr hb
  have hcs : checkSysMemInfo sys bytes = Status.ok := by
    rw [checkSysMemInfo, if_neg (not_le.mpr hsys)]
  have hw : tryConsume sys tree self bytes s
      = tcWalk tree bytes (tree self).allAncestors.reverse [] s := by
    simp only [tryConsume]
    rw [if_neg hbn, hcs]
  rcases tcWalk_zero tree bytes (tree self).allAncestors.reverse [] s hgc with
    ⟨h1, _, _⟩ | ⟨f, h1, h2, h3, h4, _⟩
  · rw [hw] at herr
    exact absurd h1 herr
  · obtain ⟨hlim, hlab⟩ := exemptB_eq_false h3
    refine ⟨fun m => ?_, f, by rw [hw]; exact h1, List.mem_reverse.mp h2, hlim, hlab⟩
    rw [hw, h4 m]
    simp [natCount]

/-- Concrete instantiation of claim C1: `try_consume(2000)` on the instance
tracker of the example tree fails against the query ceiling and leaves all
counters at their initial values. -/
theorem tryConsume_failure_exact_rollback_witness :
    ((0:Int) < 2000 ∧ exSys.vmRss + 2000 < exSys.memLimit
      ∧ (tryConsume exSys exTree 2 2000 zeroState).1 ≠ Status.ok)
    ∧ ((∀ m, (tryConsume exSys exTree 2 2000 zeroState).2.consumption m
          = zeroState.consumption m)
      ∧ ∃ f, (tryConsume exSys exTree 2 2000 zeroState).1 = Status.memLimitExceeded f
          ∧ f ∈ (exTree 2).allAncestors ∧ 0 ≤ (exTree f).limit
          ∧ (exTree f).label ≠ "Process") :=
  ⟨⟨by decide, by decide, by decide⟩,
    tryConsume_failure_exact_rollback exSys exTree 2 2000 zeroState (by decide)
      (by decide) (gcZero_of_nil (fun _ => rfl)) (by decide)⟩

/-- Counterexample to claim C2 as stated: in the spec §8.6 scenario with a
GC callback freeing 450 bytes registered on the query tracker,
`try_consume(500)` on the instance tracker succeeds, yet the root (node 0,
a member of the caller's `all_ancestors`) has not been incremented by 500:
the callback's release also walked through the root, so it nets +50. -/
theorem tryConsume_success_increment_cex :
    (tryConsume exSys exTree 2 500 exS600gc).1 = Status.ok
    ∧ 0 ∈ (exTree 2).allAncestors
    ∧ ¬ (tryConsume exSys exTree 2 500 exS600gc).2.consumption 0
        = exS600gc.consumption 0 + 500 := by
  decide

/-- Claim C2 (amended): for every tracker node with a duplicate-free
ancestor chain and every `bytes > 0`, if `try_consume(bytes)` returns
success and no registered GC callback frees memory during the call, then
the counter of every node in `all_ancestors` (the node itself, every
ancestor and the root, walked in root-to-leaf order) has been incremented
by exactly `bytes`. -/
theorem tryConsume_success_increments_no_gc (sys : SysInfo) (tree : TrackerTree)
    (self : Nat) (bytes : Int) (s : MemState) (hb : 0 < bytes)
    (hnd : (tree self).allAncestors.Nodup) (hgc : GcZero s)
    (hok : (tryConsume sys tree self bytes s).1 = Status.ok) :
    ∀ n ∈ (tree self).allAncestors,
      (tryConsume sys tree self bytes s).2.consumption n
        = s.consumption n + bytes := by
  have hbn : ¬ bytes ≤ 0 := not_le.mpr hb
  by_cases hsys : sys.vmRss + bytes ≥ sys.memLimit
  · have hfail : tryConsume sys tree self bytes s = (Status.sysMemExceeded, s) := by
      simp only [tryConsume]
      rw [if_neg hbn, checkSysMemInfo, if_pos hsys]
    rw [hfail] at hok
    exact absurd hok (by simp)
  · have hcs : checkSysMemInfo sys bytes = Status.ok := by
      rw [checkSysMemInfo, if_neg hsys]
    have hw : tryConsume sys tree self bytes s
        = tcWalk tree bytes (tree self).allAncestors.reverse [] s := by
      simp only [tryConsume]
      rw [if_neg hbn, hcs]
    rcases tcWalk_zero tree bytes (tree self).allAncestors.reverse [] s hgc with
      ⟨_, h2, _⟩ | ⟨f, h1, _, _, _, _⟩
    · intro n hn
      rw [hw, h2 n,
        natCount_eq_one (List.nodup_reverse.mpr hnd) (List.mem_reverse.mpr hn)]
      push_cast
      ring
    · rw [hw, h1] at hok
      exact absurd hok (by simp)

/-- Concrete instantiation of the amended claim C2: the first
`try_consume(600)` of the example scenario increments all three chain
counters by exactly 600. -/
theorem tryConsume_success_increments_no_gc_witness :
    ((0:Int) < 600 ∧ (exTree 2).allAncestors.Nodup
      ∧ (tryConsume exSys exTree 2 600 zeroState).1 = Status.ok)
    ∧ ∀ n ∈ (exTree 2).allAncestors,
        (tryConsume exSys exTree 2 600 zeroState).2.consumption n
          = zeroState.consumption n + 600 :=
  ⟨⟨by decide, by decide, by decide⟩,
    tryConsume_success_increments_no_gc exSys exTree 2 600 zeroState (by decide)
      (by decide) (gcZero_of_nil (fun _ => rfl)) (by decide)⟩

/-- The flush behaviour that §4.4 of the spec describes for
`cache_consume_local`: on a flush, the *drained* accumulator value is
propagated to every ancestor except the process node.  This definition
follows the spec's words and exists only to be compared with
`cacheConsumeLocal`, which embeds the source and adds the current call's
`bytes` argument instead. -/
def cacheConsumeLocalSpec (tree : TrackerTree) (minSize : Int) (self : Nat)
    (bytes : Int) (s : MemState) : MemState :=
  if bytes = 0 then s
  else
    let r := addUntrackedMem minSize self bytes s
    if r.1 ≠ 0 then addUntilProcess tree r.1 (tree self).allAncestors r.2
    else r.2

/-- Claim C3 evaluated at a failing input: two `cache_consume_local(60)`
calls on the instance tracker with flush threshold 100.  The second call
drains the accumulated 120 from the accumulator (which resets to 0), but
the source propagates only the current call's 60 bytes to the ancestors —
60 batched bytes are silently lost — whereas the spec's description
(`cacheConsumeLocalSpec`) propagates the drained 120. -/
theorem cacheConsumeLocal_drops_drained_value :
    (cacheConsumeLocal exTree 100 2 60
        (cacheConsumeLocal exTree 100 2 60 zeroState)).untrackedMem 2 = 0
    ∧ (cacheConsumeLocal exTree 100 2 60
        (cacheConsumeLocal exTree 100 2 60 zeroState)).consumption 2 = 60
    ∧ (cacheConsumeLocal exTree 100 2 60
        (cacheConsumeLocal exTree 100 2 60 zeroState)).consumption 1 = 60
    ∧ (cacheConsumeLocalSpec exTree 100 2 60
        (cacheConsumeLocalSpec exTree 100 2 60 zeroState)).consumption 2 = 120 := by
  decide

/-- Claim C4: over any sequence of operations mixing `cache_consume_local`
and direct `consume`/`release` calls, the counter of a tracker labelled
`"Process"` (the root) changes exactly by the direct-consume contributions:
`cache_consume_local` never changes it, however often the accumulators
flush. -/
theorem process_root_isolation (tree : TrackerTree) (minSize : Int) (r : Nat)
    (ops : List MemOp) (s : MemState) (hr : (tree r).label = "Process") :
    (runOps tree minSize ops s).consumption r
      = s.consumption r + sumConsumeDelta tree r ops :=
  runOps_process tree minSize r hr ops s

/-- Concrete instantiation of claim C4: two flushing batched calls and one
direct consume on the instance tracker; the root's counter moves only by
the direct consume's 100 bytes. -/
theorem process_root_isolation_witness :
    (exTree 0).label = "Process"
    ∧ (runOps exTree 600 [MemOp.cacheLocalOp 2 500, MemOp.consumeOp 2 100,
          MemOp.cacheLocalOp 2 700] zeroState).consumption 0
        = zeroState.consumption 0 + sumConsumeDelta exTree 0
            [MemOp.cacheLocalOp 2 500, MemOp.consumeOp 2 100,
              MemOp.cacheLocalOp 2 700]
    ∧ sumConsumeDelta exTree 0 [MemOp.cacheLocalOp 2 500, MemOp.consumeOp 2 100,
          MemOp.cacheLocalOp 2 700] = 100 :=
  ⟨by decide,
    process_root_isolation exTree 600 0 _ zeroState (by decide),
    by decide⟩

/-- Claim C5: with no GC callback freeing memory, a `try_consume(bytes)`
call (`bytes > 0`, `SysMemGuard` passing) over a duplicate-free chain
(i) succeeds when every limited non-`"Process"` ancestor would stay
strictly below its limit, (ii) fails deterministically otherwise — success
forces every such ancestor to have been strictly below — and (iii) never
leaves the consumption of a limited non-`"Process"` ancestor above its
limit. -/
theorem tryConsume_limit_monotonicity (sys : SysInfo) (tree : TrackerTree)
    (self : Nat) (bytes : Int) (s : MemState) (hb : 0 < bytes)
    (hsys : sys.vmRss + bytes < sys.memLimit) (hgc : GcZero s)
    (hnd : (tree self).allAncestors.Nodup) :
    ((∀ n ∈ (tree self).allAncestors, exemptB (tree n) = true
        ∨ s.consumption n + bytes < (tree n).limit) →
      (tryConsume sys tree self bytes s).1 = Status.ok)
    ∧ ((tryConsume sys tree self bytes s).1 = Status.ok →
        ∀ n ∈ (tree self).allAncestors, exemptB (tree n) = false →
          s.consumption n + bytes < (tree n).limit)
    ∧ (∀ n ∈ (tree self).allAncestors, exemptB (tree n) = false →
        s.consumption n ≤ (tree n).limit →
        (tryConsume sys tree self bytes s).2.consumption n ≤ (tree n).limit) := by
  have hbn : ¬ bytes ≤ 0 := not_le.mpr hb
  have hcs : checkSysMemInfo sys bytes = Status.ok := by
    rw [checkSysMemInfo, if_neg (not_le.mpr hsys)]
  have hw : tryConsume sys tree self bytes s
      = tcWalk tree bytes (tree self).allAncestors.reverse [] s := by
    simp only [tryConsume]
    rw [if_neg hbn, hcs]
  have hndr : (tree self).allAncestors.reverse.Nodup := List.nodup_reverse.mpr hnd
  rcases tcWalk_zero tree bytes (tree self).allAncestors.reverse [] s hgc with
    ⟨h1, h2, h3⟩ | ⟨f, h1, h2, h3, h4, h5⟩
  · refine ⟨fun _ => by rw [hw]; exact h1,
      fun _ n hn hne => h3 hndr n (List.mem_reverse.mpr hn) hne,
      fun n hn hne hle => ?_⟩
    have hlt := h3 hndr n (List.mem_reverse.mpr hn) hne
    rw [hw, h2 n, natCount_eq_one hndr (List.mem_reverse.mpr hn)]
    push_cast
    linarith
  · have hfm : f ∈ (tree self).allAncestors := List.mem_reverse.mp h2
    refine ⟨fun hall => ?_, fun hok => ?_, fun n hn hne hle => ?_⟩
    · rcases hall f hfm with he | hcnd
      · rw [he] at h3
        exact absurd h3 (by simp)
      · exact absurd (h5 hndr) (not_le.mpr hcnd)
    · rw [hw, h1] at hok
      exact absurd hok (by simp)
    · rw [hw, h4 n]
      simp only [natCount]
      push_cast
      linarith

/-- Concrete instantiation of claim C5: `try_consume(600)` from zero
consumption on the example tree (query limit 1000). -/
theorem tryConsume_limit_monotonicity_witness :
    ((0:Int) < 600 ∧ exSys.vmRss + 600 < exSys.memLimit
      ∧ (exTree 2).allAncestors.Nodup)
    ∧ (((∀ n ∈ (exTree 2).allAncestors, exemptB (exTree n) = true
          ∨ zeroState.consumption n + 600 < (exTree n).limit) →
        (tryConsume exSys exTree 2 600 zeroState).1 = Status.ok)
      ∧ ((tryConsume exSys exTree 2 600 zeroState).1 = Status.ok →
          ∀ n ∈ (exTree 2).allAncestors, exemptB (exTree n) = false →
            zeroState.consumption n + 600 < (exTree n).limit)
      ∧ (∀ n ∈ (exTree 2).allAncestors, exemptB (exTree n) = false →
          zeroState.consumption n ≤ (exTree n).limit →
          (tryConsume exSys exTree 2 600 zeroState).2.consumption n
            ≤ (exTree n).limit)) :=
  ⟨⟨by decide, by decide, by decide⟩,
    tryConsume_limit_monotonicity exSys exTree 2 600 zeroState (by decide)
      (by decide) (gcZero_of_nil (fun _ => rfl)) (by decide)⟩

/-- Claim C6: the spec §8.6 scenario on the tree root (unlimited, label
`"Process"`) → query (limit 1000) → instance (unlimited): from zero,
`try_consume(600)` on the instance succeeds putting 600 everywhere; a
further `try_consume(500)` with no GC callback fails naming the query
tracker, leaving the query at 600 and the root rolled back to 600; with a
GC callback on the query tracker freeing 450 bytes, the second
`try_consume(500)` succeeds. -/
theorem tryConsume_example_scenario :
    (tryConsume exSys exTree 2 600 zeroState).1 = Status.ok
    ∧ (tryConsume exSys exTree 2 600 zeroState).2.consumption 0 = 600
    ∧ (tryConsume exSys exTree 2 600 zeroState).2.consumption 1 = 600
    ∧ (tryConsume exSys exTree 2 600 zeroState).2.consumption 2 = 600
    ∧ (tryConsume exSys exTree 2 500 exS600).1 = Status.memLimitExceeded 1
    ∧ (tryConsume exSys exTree 2 500 exS600).2.consumption 1 = 600
    ∧ (tryConsume exSys exTree 2 500 exS600).2.consumption 0 = 600
    ∧ (tryConsume exSys exTree 2 500 exS600gc).1 = Status.ok := by
  decide

/-- Claim C7: `check_limit(bytes)` for `bytes > 0` (with the `SysMemGuard`
check passing and no GC callback freeing memory) walks only the
`limited_ancestors` list; it never mutates any tracker's consumption
counter, whether it succeeds or fails, and a `try_gc_memory` failure is
propagated immediately as a memory-limit-exceeded error naming a limited
ancestor whose ceiling blocked the request. -/
theorem checkLimit_non_mutating (sys : SysInfo) (tree : TrackerTree)
    (self : Nat) (bytes : Int) (s : MemState) (hb : 0 < bytes)
    (hsys : sys.vmRss + bytes < sys.memLimit) (hgc : GcZero s) :
    (∀ m, (checkLimit sys tree self bytes s).2.consumption m = s.consumption m)
    ∧ ((checkLimit sys tree self bytes s).1 = Status.ok
      ∨ ∃ f, (checkLimit sys tree self bytes s).1 = Status.memLimitExceeded f
          ∧ f ∈ (tree self).limitedAncestors
          ∧ (tree f).limit ≤ s.consumption f + bytes) := by
  have hbn : ¬ bytes ≤ 0 := not_le.mpr hb
  have hcs : checkSysMemInfo sys bytes = Status.ok := by
    rw [checkSysMemInfo, if_neg (not_le.mpr hsys)]
  have hw : checkLimit sys tree self bytes s
      = clWalk tree bytes (tree self).limitedAncestors.reverse s := by
    simp only [checkLimit]
    rw [if_neg hbn, hcs]
  rcases clWalk_zero tree bytes (tree self).limitedAncestors.reverse s hgc with
    h | ⟨f, s', hf, hle, hcl, hcons⟩
  · rw [hw, h]
    exact ⟨fun m => rfl, Or.inl rfl⟩
  · rw [hw, hcl]
    exact ⟨fun m => congrFun hcons m,
      Or.inr ⟨f, rfl, List.mem_reverse.mp hf, hle⟩⟩

/-- Concrete instantiation of claim C7: `check_limit(2000)` on the instance
tracker fails against the query ceiling without touching any counter. -/
theorem checkLimit_non_mutating_witness :
    ((0:Int) < 2000 ∧ exSys.vmRss + 2000 < exSys.memLimit)
    ∧ ((∀ m, (checkLimit exSys exTree 2 2000 zeroState).2.consumption m
          = zeroState.consumption m)
      ∧ ((checkLimit exSys exTree 2 2000 zeroState).1 = Status.ok
        ∨ ∃ f, (checkLimit exSys exTree 2 2000 zeroState).1
              = Status.memLimitExceeded f
            ∧ f ∈ (exTree 2).limitedAncestors
            ∧ (exTree f).limit ≤ zeroState.consumption f + 2000)) :=
  ⟨⟨by decide, by decide⟩,
    checkLimit_non_mutating exSys exTree 2 2000 zeroState (by decide)
      (by decide) (gcZero_of_nil (fun _ => rfl))⟩

/-- Claim C8: for every tracker node and every `bytes <= 0`,
`try_consume(bytes)` returns success without consulting the `SysMemGuard`
(the result does not depend on `sys`) or any limit, and is exactly
`release(-bytes)`, i.e. the unconditional `consume(bytes)` over
`all_ancestors` — a no-op when `bytes = 0`; `consume`/`release` return no
status at all and can never fail. -/
theorem tryConsume_nonpositive_is_release (sys : SysInfo) (tree : TrackerTree)
    (self : Nat) (bytes : Int) (s : MemState) (hb : bytes ≤ 0) :
    tryConsume sys tree self bytes s
      = (Status.ok, release tree self (-bytes) s)
    ∧ release tree self (-bytes) s = consume tree self bytes s
    ∧ (bytes = 0 → consume tree self bytes s = s) := by
  refine ⟨?_, ?_, fun h0 => ?_⟩
  · simp only [tryConsume]
    rw [if_pos hb]
  · rw [release, neg_neg]
  · rw [consume, if_pos h0]

/-- Concrete instantiation of claim C8: `try_consume(-5)` on the instance
tracker is the unconditional release of 5 bytes. -/
theorem tryConsume_nonpositive_is_release_witness :
    ((-5 : Int) ≤ 0)
    ∧ (tryConsume exSys exTree 2 (-5) exS600
        = (Status.ok, release exTree 2 (-(-5)) exS600)
      ∧ release exTree 2 (-(-5)) exS600 = consume exTree 2 (-5) exS600
      ∧ ((-5 : Int) = 0 → consume exTree 2 (-5) exS600 = exS600)) :=
  ⟨by decide,
    tryConsume_nonpositive_is_release exSys exTree 2 (-5) exS600 (by decide)⟩

/-- Claim C9: in `try_consume` a tracker is exempt from its ceiling exactly
when `limit < 0` or its label is `"Process"`: if every chain node passes
that test the walk is one unconditional add per node and always succeeds
(so a `"Process"`-labelled tracker with a non-negative limit, root or not,
never has its limit enforced), any memory-limit failure names a node that
fails the test, and the same label test is what stops the propagation of
`cache_consume_local`, which never changes a `"Process"`-labelled node. -/
theorem process_label_exemption (sys : SysInfo) (tree : TrackerTree)
    (self : Nat) (bytes : Int) (s : MemState) (minSize : Int)
    (hb : 0 < bytes) (hsys : sys.vmRss + bytes < sys.memLimit) :
    ((∀ n ∈ (tree self).allAncestors, exemptB (tree n) = true) →
      tryConsume sys tree self bytes s
        = (Status.ok, addAll bytes (tree self).allAncestors.reverse s))
    ∧ (∀ f, (tryConsume sys tree self bytes s).1 = Status.memLimitExceeded f →
        f ∈ (tree self).allAncestors ∧ 0 ≤ (tree f).limit
          ∧ (tree f).label ≠ "Process")
    ∧ (∀ m, (tree m).label = "Process" →
        (cacheConsumeLocal tree minSize self bytes s).consumption m
          = s.consumption m) := by
  have hbn : ¬ bytes ≤ 0 := not_le.mpr hb
  have hcs : checkSysMemInfo sys bytes = Status.ok := by
    rw [checkSysMemInfo, if_neg (not_le.mpr hsys)]
  have hw : tryConsume sys tree self bytes s
      = tcWalk tree bytes (tree self).allAncestors.reverse [] s := by
    simp only [tryConsume]
    rw [if_neg hbn, hcs]
  refine ⟨fun hall => ?_, fun f hf => ?_, fun m hm =>
    cacheConsumeLocal_process tree minSize self bytes s m hm⟩
  · rw [hw, tcWalk_allExempt tree bytes _ [] s
      (fun n hn => hall n (List.mem_reverse.mp hn))]
  · rw [hw] at hf
    obtain ⟨hmem, hfe⟩ := tcWalk_err tree bytes _ [] s f hf
    obtain ⟨hlim, hlab⟩ := exemptB_eq_false hfe
    exact ⟨List.mem_reverse.mp hmem, hlim, hlab⟩

/-- Concrete instantiation of claim C9 on `exTreeP`, whose node 1 is a
non-root tracker labelled `"Process"` with limit 0: `try_consume(50)`
succeeds and drives that node's consumption to 50, beyond its limit, and
`cache_consume_local` leaves both `"Process"`-labelled nodes untouched. -/
theorem process_label_exemption_witness :
    ((0:Int) < 50 ∧ exSys.vmRss + 50 < exSys.memLimit
      ∧ (∀ n ∈ (exTreeP 2).allAncestors, exemptB (exTreeP n) = true))
    ∧ tryConsume exSys exTreeP 2 50 zeroState
        = (Status.ok, addAll 50 (exTreeP 2).allAncestors.reverse zeroState)
    ∧ (tryConsume exSys exTreeP 2 50 zeroState).2.consumption 1 = 50
    ∧ (exTreeP 1).limit = 0
    ∧ (cacheConsumeLocal exTreeP 10 2 50 zeroState).consumption 1 = 0 :=
  ⟨⟨by decide, by decide, by decide⟩,
    (process_label_exemption exSys exTreeP 2 50 zeroState 10 (by decide)
      (by decide)).1 (by decide),
    by decide, by decide, by decide⟩

/-- Claim C10: viewed sequentially, each `add_untracked_mem(b)` call
returns either 0 or the entire accumulated value `acc + b`; with a
positive threshold, a non-zero value is returned exactly when the post-add
magnitude reaches the threshold, after which the accumulator is 0; and
over any call sequence the accumulator plus the sum of all returned values
equals the sum of all `bytes` arguments — the accumulator itself loses and
duplicates nothing. -/
theorem addUntrackedMem_accumulator_invariant (minSize : Int) (self : Nat)
    (b : Int) (s0 : MemState) (bs : List Int) (s : MemState)
    (hmin : 0 < minSize) :
    ((addUntrackedMem minSize self b s0).1 = 0
      ∨ (addUntrackedMem minSize self b s0).1 = s0.untrackedMem self + b)
    ∧ ((addUntrackedMem minSize self b s0).1 ≠ 0
        ↔ minSize ≤ |s0.untrackedMem self + b|)
    ∧ (minSize ≤ |s0.untrackedMem self + b| →
        (addUntrackedMem minSize self b s0).2.untrackedMem self = 0)
    ∧ ((untrackedRun minSize self bs s).2.untrackedMem self
          + ((untrackedRun minSize self bs s).1).sum
        = s.untrackedMem self + bs.sum) := by
  by_cases habs : |s0.untrackedMem self + b| ≥ minSize
  · have hu : s0.untrackedMem self + b ≠ 0 := by
      intro h0
      rw [h0] at habs
      simp at habs
      omega
    refine ⟨Or.inr ?_, ⟨fun _ => habs, fun _ => ?_⟩, fun _ => ?_,
      untrackedRun_conserve minSize self bs s⟩
    · rw [addUntrackedMem, if_pos habs]
    · rw [addUntrackedMem, if_pos habs]
      exact hu
    · rw [addUntrackedMem, if_pos habs]
      simp [setAt]
  · refine ⟨Or.inl ?_, ⟨fun hne => absurd ?_ hne, fun hle => absurd hle habs⟩,
      fun hle => absurd hle habs, untrackedRun_conserve minSize self bs s⟩
    · rw [addUntrackedMem, if_neg habs]
    · rw [addUntrackedMem, if_neg habs]

/-- Concrete instantiation of claim C10: threshold 100, calls of 60, 60
and -30 bytes on node 2; the second call drains 120, the final accumulator
holds -30, and 120 + (-30) = 60 + 60 - 30. -/
theorem addUntrackedMem_accumulator_invariant_witness :
    ((0:Int) < 100)
    ∧ (((addUntrackedMem 100 2 60 zeroState).1 = 0
        ∨ (addUntrackedMem 100 2 60 zeroState).1 = zeroState.untrackedMem 2 + 60)
      ∧ ((addUntrackedMem 100 2 60 zeroState).1 ≠ 0
          ↔ (100:Int) ≤ |zeroState.untrackedMem 2 + 60|)
      ∧ ((100:Int) ≤ |zeroState.untrackedMem 2 + 60| →
          (addUntrackedMem 100 2 60 zeroState).2.untrackedMem 2 = 0)
      ∧ ((untrackedRun 100 2 [60, 60, -30] zeroState).2.untrackedMem 2
            + ((untrackedRun 100 2 [60, 60, -30] zeroState).1).sum
          = zeroState.untrackedMem 2 + ([60, 60, -30] : List Int).sum)) :=
  ⟨by decide,
    addUntrackedMem_accumulator_invariant 100 2 60 zeroState [60, 60, -30]
      zeroState (by decide)⟩
